import Mathlib

/-!
Shallow embedding of the libsql HTTP driver core
(`libsql/internal/http/driver.go`): value coercion, the row cursor,
parameter normalization and the connection's exec/query entry points.

Modelling conventions:
* Go's `driver.Value` cells are a closed sum `Value`; `float64` wire
  values are modelled as exact rationals (every finite IEEE-754 double is
  a rational, and both `math.Mod(v, 1)` and the `int64(v)` conversion are
  exact operations on doubles, so the rational model is faithful).
* Go's `(T, error)` returns are `Except` values; a `nil` error is `.ok`.
* Go nil slices are `Option.none`; `append` to a slice always yields a
  present (non-nil) slice, as in Go.
* `callSqld` lives in a sibling file of the repository; the connection
  methods take it as an explicit collaborator parameter, universally
  quantified in the theorems about them.
-/

namespace LibsqlHttp

/-- Canonical cell value: one of null, 64-bit integer, floating point
(modelled as an exact rational), boolean, text, or byte sequence. -/
inductive Value : Type where
  | vnull : Value
  | vint : Int → Value
  | vfloat : ℚ → Value
  | vbool : Bool → Value
  | vtext : String → Value
  | vblob : List Nat → Value
deriving DecidableEq

/-- Go's `int64(v)` conversion for a double: truncation toward zero. -/
def ratTrunc (q : ℚ) : Int :=
  if 0 ≤ q then ⌊q⌋ else ⌈q⌉

/-- Go's `math.Mod(v, 1)`: `v - Trunc(v/1)*1`, sign follows `v`. -/
def goMod1 (q : ℚ) : ℚ :=
  q - (ratTrunc q : ℚ)

/-- The per-cell coercion performed by the switch inside `rows.Next`:
`int64` passes through, a `float64` with `math.Mod(v, 1) >= 0` is
truncated to `int64`, any other value passes through unchanged. -/
def coerceValue : Value → Value
  | .vint i => .vint i
  | .vfloat q => if 0 ≤ goMod1 q then .vint (ratTrunc q) else .vfloat q
  | v => v

/-- Modelled from the spec: the decoded RPC response type `resultSet` is
declared in a sibling file of the repository; its `Columns` and `Rows`
fields are exactly the ones `driver.go` reads. -/
structure resultSet : Type where
  Columns : List String
  Rows : List (List Value)
deriving DecidableEq

/-- The row cursor `rows`: an owned result set plus the current row
index, initially 0. -/
structure rows : Type where
  result : resultSet
  currentRowIdx : Nat
deriving DecidableEq

def rows.Columns (r : rows) : List String :=
  r.result.Columns

def rows.Close (_ : rows) : Except String Unit :=
  .ok ()

/-- Outcome tags for a single `Next` call that does not succeed:
`eof` is the distinguished end-of-data signal (`io.EOF`); `fault` marks
an out-of-bounds slice index, which in Go is a runtime panic. -/
inductive NextErr : Type where
  | eof : NextErr
  | fault : NextErr
deriving DecidableEq

/-- The cell-writing loop of `rows.Next`: write the coerced cells of
`row` into the front of `dest`, keeping any excess of `dest`; fault
(Go: index-out-of-range panic) when `dest` is shorter than `row`. -/
def writeCells : List Value → List Value → Option (List Value)
  | dest, [] => some dest
  | [], _ :: _ => none
  | _ :: dest, c :: row =>
    match writeCells dest row with
    | none => none
    | some ds => some (coerceValue c :: ds)

/-- `rows.Next`: end-of-data when the index equals the row count,
otherwise coerce and write each cell of the current row into `dest` and
advance the index by one. Functional embedding: a successful call
returns the written buffer and the advanced cursor. -/
def rows.Next (r : rows) (dest : List Value) : Except NextErr (List Value × rows) :=
  if r.currentRowIdx = r.result.Rows.length then .error .eof
  else
    match r.result.Rows[r.currentRowIdx]? with
    | none => .error .fault
    | some row =>
      match writeCells dest row with
      | none => .error .fault
      | some ds => .ok (ds, ⟨r.result, r.currentRowIdx + 1⟩)

/-- The exec result: last-insert id and affected-row count. -/
structure result : Type where
  id : Int
  changes : Int
deriving DecidableEq

def result.LastInsertId (r : result) : Except String Int :=
  .ok r.id

def result.RowsAffected (r : result) : Except String Int :=
  .ok r.changes

/-- The connection: endpoint URL and auth token, immutable. -/
structure conn : Type where
  url : String
  jwt : String
deriving DecidableEq

def Connect (url jwt : String) : conn :=
  ⟨url, jwt⟩

/-- Statement objects: `conn.Prepare` never constructs one, so the type
is empty. -/
inductive Stmt : Type

/-- Transaction objects: `conn.Begin` never constructs one, so the type
is empty. -/
inductive Tx : Type

/-- `conn.Prepare` fails unconditionally; it takes no RPC collaborator,
so no RPC can be attempted. -/
def conn.Prepare (_ : conn) (_ : String) : Except String Stmt :=
  .error "prepare method not implemented"

def conn.Close (_ : conn) : Except String Unit :=
  .ok ()

/-- `conn.Begin` fails unconditionally; it takes no RPC collaborator,
so no RPC can be attempted. -/
def conn.Begin (_ : conn) : Except String Tx :=
  .error "begin method not implemented"

/-- A caller-supplied argument: optional name, declared ordinal, value
(Go's `driver.NamedValue`). -/
structure NamedValue : Type where
  Name : String
  Ordinal : Int
  Value : Value
deriving DecidableEq

/-- Modelled from the spec: the wire parameter type `params` is declared
in a sibling file of the repository; its `Names` and `Values` fields are
exactly the ones `convertArgs` builds, and each is a Go slice that can
be nil (`none`) or present (`some`). -/
structure params : Type where
  Names : Option (List String)
  Values : Option (List Value)
deriving DecidableEq

/-- Go `append` on a possibly-nil slice: the result is always present. -/
def goAppend {α : Type} (s : Option (List α)) (a : α) : Option (List α) :=
  some (s.getD [] ++ [a])

/-- The comparison used by `sort.Slice` in `convertArgs`, as a
(non-strict) ordering relation on ordinals. -/
def ordLE (a b : NamedValue) : Prop :=
  a.Ordinal ≤ b.Ordinal

instance instDecOrdLE : DecidableRel ordLE :=
  fun a b => inferInstanceAs (Decidable (a.Ordinal ≤ b.Ordinal))

instance instTotalOrdLE : IsTotal NamedValue ordLE :=
  ⟨fun a b => Int.le_total a.Ordinal b.Ordinal⟩

instance instTransOrdLE : IsTrans NamedValue ordLE :=
  ⟨fun _ _ _ h1 h2 => le_trans h1 h2⟩

/-- One step of the name-collecting loop of `convertArgs`. -/
def appendName (ns : Option (List String)) (a : NamedValue) : Option (List String) :=
  if 0 < a.Name.length then goAppend ns a.Name else ns

/-- One step of the value-collecting loop of `convertArgs`. -/
def appendValue (vs : Option (List Value)) (a : NamedValue) : Option (List Value) :=
  goAppend vs a.Value

/-- `convertArgs`: empty input yields the zero `params` (both slices
nil); otherwise sort the arguments by ordinal ascending and collect the
names of named arguments and all values in that order. `sort.Slice` is
unspecified on equal keys, so the embedding fixes a sorted permutation
(insertion sort); on pairwise-distinct ordinals — the calling contract —
the sorted permutation is unique, so the choice is immaterial. -/
def convertArgs (args : List NamedValue) : params :=
  if args.length = 0 then ⟨none, none⟩
  else
    let sortedArgs := List.insertionSort ordLE args
    ⟨sortedArgs.foldl appendName none, sortedArgs.foldl appendValue none⟩

/-- `conn.ExecContext`: normalize the arguments, invoke the RPC
collaborator, propagate its error unchanged, and on success return a
zero-valued result summary. -/
def conn.ExecContext {Ctx E : Type}
    (callSqld : Ctx → String → String → String → params → Except E resultSet)
    (c : conn) (ctx : Ctx) (query : String) (args : List NamedValue) :
    Except E result :=
  match callSqld ctx c.url c.jwt query (convertArgs args) with
  | .error e => .error e
  | .ok _ => .ok ⟨0, 0⟩

/-- `conn.QueryContext`: normalize the arguments, invoke the RPC
collaborator, propagate its error unchanged, and on success wrap the
decoded result set in a fresh cursor at index 0. -/
def conn.QueryContext {Ctx E : Type}
    (callSqld : Ctx → String → String → String → params → Except E resultSet)
    (c : conn) (ctx : Ctx) (query : String) (args : List NamedValue) :
    Except E rows :=
  match callSqld ctx c.url c.jwt query (convertArgs args) with
  | .error e => .error e
  | .ok rs => .ok ⟨rs, 0⟩

/-- Claim C1: for every floating-point wire value v, the coercion in the
row cursor's Next yields the truncated 64-bit integer int64(v) when
math.Mod(v, 1) >= 0, and yields v unchanged as a float when
math.Mod(v, 1) < 0. -/
theorem C1_float_coercion (q : ℚ) :
    (0 ≤ goMod1 q → coerceValue (.vfloat q) = .vint (ratTrunc q)) ∧
    (goMod1 q < 0 → coerceValue (.vfloat q) = .vfloat q) := by
  constructor
  · intro h
    simp [coerceValue, h]
  · intro h
    simp [coerceValue, not_le.mpr h]

/-- Witness for C1 at the spec's examples: 42.0 is truncated to
int64(42), 3.14 is truncated to int64(3), and -0.5 stays a float. -/
theorem C1_float_coercion_witness :
    (0 ≤ goMod1 42 ∧ coerceValue (.vfloat 42) = .vint (ratTrunc 42) ∧ ratTrunc 42 = 42) ∧
    (0 ≤ goMod1 3.14 ∧ coerceValue (.vfloat 3.14) = .vint (ratTrunc 3.14) ∧ ratTrunc 3.14 = 3) ∧
    (goMod1 (-0.5) < 0 ∧ coerceValue (.vfloat (-0.5)) = .vfloat (-0.5)) := by
  have ht42 : ratTrunc (42 : ℚ) = 42 := by
    simp only [ratTrunc]
    rw [if_pos (by norm_num)]
    norm_num
  have h42 : 0 ≤ goMod1 (42 : ℚ) := by
    rw [goMod1, ht42]
    norm_num
  have ht314 : ratTrunc (3.14 : ℚ) = 3 := by
    simp only [ratTrunc]
    rw [if_pos (by norm_num)]
    norm_num
  have h314 : 0 ≤ goMod1 (3.14 : ℚ) := by
    rw [goMod1, ht314]
    norm_num
  have htneg : ratTrunc (-0.5 : ℚ) = 0 := by
    simp only [ratTrunc]
    rw [if_neg (by norm_num)]
    norm_num
  have hneg : goMod1 (-0.5 : ℚ) < 0 := by
    rw [goMod1, htneg]
    norm_num
  exact ⟨⟨h42, (C1_float_coercion 42).1 h42, ht42⟩,
         ⟨h314, (C1_float_coercion 3.14).1 h314, ht314⟩,
         ⟨hneg, (C1_float_coercion (-0.5)).2 hneg⟩⟩

/-- Claim C2: coercion is the identity on every non-float wire value
(64-bit integer, boolean, text, byte sequence, null), and it is a total
function, so it never fails. -/
theorem C2_nonfloat_identity :
    coerceValue .vnull = .vnull ∧
    (∀ i : Int, coerceValue (.vint i) = .vint i) ∧
    (∀ b : Bool, coerceValue (.vbool b) = .vbool b) ∧
    (∀ s : String, coerceValue (.vtext s) = .vtext s) ∧
    (∀ bs : List Nat, coerceValue (.vblob bs) = .vblob bs) :=
  ⟨rfl, fun _ => rfl, fun _ => rfl, fun _ => rfl, fun _ => rfl⟩

/-- Claim C5: Prepare and Begin always fail immediately with the
not-implemented error, for every connection and query; no statement or
transaction object can be returned (the types are empty), and neither
method takes the RPC collaborator, so no RPC is attempted. -/
theorem C5_prepare_begin_unimplemented (c : conn) (query : String) :
    c.Prepare query = .error "prepare method not implemented" ∧
    c.Begin = .error "begin method not implemented" ∧
    (∀ st : Stmt, False) ∧
    (∀ tx : Tx, False) := by
  refine ⟨rfl, rfl, ?_, ?_⟩
  · intro st
    cases st
  · intro tx
    cases tx

/-- A constant failing RPC collaborator, used to instantiate theorems at
a concrete input. -/
def constErrCall : Unit → String → String → String → params → Except Nat resultSet :=
  fun _ _ _ _ _ => .error 7

/-- A constant succeeding RPC collaborator, used to instantiate theorems
at a concrete input. -/
def constOkCall : Unit → String → String → String → params → Except Nat resultSet :=
  fun _ _ _ _ _ => .ok ⟨[], []⟩

/-- Claim C6: whatever error value the RPC collaborator returns is
returned unchanged (same value, same type, no wrapping) by both
ExecContext and QueryContext, with no result object; on RPC success both
return a non-error result. -/
theorem C6_rpc_error_propagation {Ctx E : Type}
    (callSqld : Ctx → String → String → String → params → Except E resultSet)
    (c : conn) (ctx : Ctx) (query : String) (args : List NamedValue) :
    (∀ e : E, callSqld ctx c.url c.jwt query (convertArgs args) = .error e →
      c.ExecContext callSqld ctx query args = .error e ∧
      c.QueryContext callSqld ctx query args = .error e) ∧
    (∀ rs : resultSet, callSqld ctx c.url c.jwt query (convertArgs args) = .ok rs →
      c.ExecContext callSqld ctx query args = .ok ⟨0, 0⟩ ∧
      c.QueryContext callSqld ctx query args = .ok ⟨rs, 0⟩) := by
  constructor
  · intro e h
    constructor <;> simp [conn.ExecContext, conn.QueryContext, h]
  · intro rs h
    constructor <;> simp [conn.ExecContext, conn.QueryContext, h]

/-- Witness for C6: a collaborator that fails with the error value 7
makes both entry points return exactly the error value 7. -/
theorem C6_rpc_error_propagation_witness :
    constErrCall () (Connect "u" "j").url (Connect "u" "j").jwt "q" (convertArgs []) = .error 7 ∧
    (Connect "u" "j").ExecContext constErrCall () "q" [] = .error 7 ∧
    (Connect "u" "j").QueryContext constErrCall () "q" [] = .error 7 := by
  have h : constErrCall () (Connect "u" "j").url (Connect "u" "j").jwt "q" (convertArgs [])
      = .error 7 := rfl
  have hc := (C6_rpc_error_propagation constErrCall (Connect "u" "j") () "q" []).1 7 h
  exact ⟨h, hc.1, hc.2⟩

/-- Claim C7: a successful ExecContext always returns the zero result
summary, whose LastInsertId and RowsAffected are 0 and never an error. -/
theorem C7_exec_summary_zero {Ctx E : Type}
    (callSqld : Ctx → String → String → String → params → Except E resultSet)
    (c : conn) (ctx : Ctx) (query : String) (args : List NamedValue) (res : result)
    (h : c.ExecContext callSqld ctx query args = .ok res) :
    res = ⟨0, 0⟩ ∧ res.LastInsertId = .ok 0 ∧ res.RowsAffected = .ok 0 := by
  unfold conn.ExecContext at h
  split at h
  · cases h
  · injection h with h2
    subst h2
    exact ⟨rfl, rfl, rfl⟩

/-- Witness for C7: with a succeeding collaborator, ExecContext returns
the zero summary and both accessors return 0 without error. -/
theorem C7_exec_summary_zero_witness :
    (Connect "u" "j").ExecContext constOkCall () "q" [] = .ok ⟨0, 0⟩ ∧
    ((⟨0, 0⟩ : result) = ⟨0, 0⟩ ∧
      result.LastInsertId ⟨0, 0⟩ = .ok 0 ∧ result.RowsAffected ⟨0, 0⟩ = .ok 0) := by
  have h : (Connect "u" "j").ExecContext constOkCall () "q" [] = .ok ⟨0, 0⟩ := rfl
  exact ⟨h, C7_exec_summary_zero constOkCall (Connect "u" "j") () "q" [] ⟨0, 0⟩ h⟩

/-- Claim C8: a successful Next changes only the current row index; the
owned result set is untouched, so Columns is the same (the result set's
column names verbatim) at every cursor position. -/
theorem C8_columns_stable (r : rows) (dest ds : List Value) (r' : rows)
    (h : r.Next dest = .ok (ds, r')) :
    r'.Columns = r.Columns ∧ r'.result = r.result ∧
    r.Columns = r.result.Columns ∧ r'.currentRowIdx = r.currentRowIdx + 1 := by
  unfold rows.Next at h
  split at h
  · cases h
  · split at h
    · cases h
    · split at h
      · cases h
      · injection h with h2
        injection h2 with h3 h4
        subst h4
        exact ⟨rfl, rfl, rfl, rfl⟩

/-- A one-row one-column sample result set for instantiating the cursor
theorems. -/
def sampleRS : resultSet :=
  ⟨["a"], [[.vint 1]]⟩

/-- Witness for C8: a concrete successful Next keeps the result set and
the column list and advances the index from 0 to 1. -/
theorem C8_columns_stable_witness :
    rows.Next ⟨sampleRS, 0⟩ [Value.vnull] = .ok ([Value.vint 1], ⟨sampleRS, 1⟩) ∧
    (rows.Columns ⟨sampleRS, 1⟩ = rows.Columns ⟨sampleRS, 0⟩ ∧
      (⟨sampleRS, 1⟩ : rows).result = (⟨sampleRS, 0⟩ : rows).result ∧
      rows.Columns ⟨sampleRS, 0⟩ = sampleRS.Columns ∧
      (⟨sampleRS, 1⟩ : rows).currentRowIdx = (⟨sampleRS, 0⟩ : rows).currentRowIdx + 1) := by
  have h : rows.Next ⟨sampleRS, 0⟩ [Value.vnull] = .ok ([Value.vint 1], ⟨sampleRS, 1⟩) := rfl
  exact ⟨h, C8_columns_stable ⟨sampleRS, 0⟩ [Value.vnull] [Value.vint 1] ⟨sampleRS, 1⟩ h⟩

/-- The cell-writing loop succeeds whenever the destination buffer is at
least as long as the row. -/
lemma writeCells_some (row : List Value) : ∀ dest : List Value,
    row.length ≤ dest.length → ∃ ds, writeCells dest row = some ds := by
  induction row with
  | nil =>
    intro dest _
    cases dest with
    | nil => exact ⟨[], rfl⟩
    | cons d ds => exact ⟨d :: ds, rfl⟩
  | cons c row ih =>
    intro dest hlen
    cases dest with
    | nil => simp at hlen
    | cons d dest =>
      obtain ⟨ds, hds⟩ := ih dest (by simpa using hlen)
      exact ⟨coerceValue c :: ds, by simp [writeCells, hds]⟩

/-- A Next call strictly before the end succeeds and advances the index
by one, provided the destination buffer is long enough. -/
lemma next_ok_aux (r : rows) (dest : List Value)
    (hk : r.currentRowIdx < r.result.Rows.length)
    (hrow : (r.result.Rows[r.currentRowIdx]).length ≤ dest.length) :
    ∃ ds, r.Next dest = .ok (ds, ⟨r.result, r.currentRowIdx + 1⟩) := by
  obtain ⟨ds, hds⟩ := writeCells_some _ dest hrow
  refine ⟨ds, ?_⟩
  unfold rows.Next
  rw [if_neg (Nat.ne_of_lt hk), List.getElem?_eq_getElem hk]
  show (match writeCells dest (r.result.Rows[r.currentRowIdx]) with
    | none => Except.error NextErr.fault
    | some ds => Except.ok (ds, (⟨r.result, r.currentRowIdx + 1⟩ : rows))) =
      Except.ok (ds, (⟨r.result, r.currentRowIdx + 1⟩ : rows))
  rw [hds]

/-- A Next call at the end signals the distinguished end-of-data. -/
lemma next_eof_aux (r : rows) (dest : List Value)
    (h : r.currentRowIdx = r.result.Rows.length) :
    r.Next dest = .error .eof := by
  unfold rows.Next
  rw [if_pos h]

/-- Claim C4: a cursor over R rows yields a successful Next at every
index below R (advancing the index by one), and at index R — reached
after the R successes, and kept forever after since a failing Next
returns no new cursor — every call signals the distinguished end-of-data
condition. -/
theorem C4_cursor_exhaustion (rs : resultSet) (dest : List Value)
    (hdest : ∀ row ∈ rs.Rows, row.length ≤ dest.length) :
    (∀ k, (hk : k < rs.Rows.length) →
      ∃ ds, rows.Next ⟨rs, k⟩ dest = .ok (ds, ⟨rs, k + 1⟩)) ∧
    rows.Next ⟨rs, rs.Rows.length⟩ dest = .error .eof := by
  constructor
  · intro k hk
    exact next_ok_aux ⟨rs, k⟩ dest hk (hdest _ (List.getElem_mem hk))
  · exact next_eof_aux ⟨rs, rs.Rows.length⟩ dest rfl

/-- Witness for C4 on a one-row result set: the first call succeeds and
advances to index 1, and the call at index 1 (and hence every later
call, the cursor being unchanged) signals end-of-data. -/
theorem C4_cursor_exhaustion_witness :
    (∀ row ∈ sampleRS.Rows, row.length ≤ ([Value.vnull]).length) ∧
    ((∀ k, (hk : k < sampleRS.Rows.length) →
      ∃ ds, rows.Next ⟨sampleRS, k⟩ [Value.vnull] = .ok (ds, ⟨sampleRS, k + 1⟩)) ∧
    rows.Next ⟨sampleRS, sampleRS.Rows.length⟩ [Value.vnull] = .error .eof) := by
  have hdest : ∀ row ∈ sampleRS.Rows, row.length ≤ ([Value.vnull]).length := by decide
  exact ⟨hdest, C4_cursor_exhaustion sampleRS [Value.vnull] hdest⟩

/-- Claim C10: Next performs no bounds checks of its own, so its fault
branch (a Go panic) is unreachable exactly under the precondition that
the destination buffer is long enough for every remaining row; any
reachable cursor state (index at most the row count) satisfying it never
faults. -/
theorem C10_next_no_fault (r : rows) (dest : List Value)
    (hidx : r.currentRowIdx ≤ r.result.Rows.length)
    (hdest : ∀ row ∈ r.result.Rows.drop r.currentRowIdx, row.length ≤ dest.length) :
    r.Next dest ≠ .error .fault := by
  rcases lt_or_eq_of_le hidx with hlt | heq
  · have hdrop : r.result.Rows.drop r.currentRowIdx =
        r.result.Rows[r.currentRowIdx] :: r.result.Rows.drop (r.currentRowIdx + 1) :=
      List.drop_eq_getElem_cons hlt
    have hmem : r.result.Rows[r.currentRowIdx] ∈ r.result.Rows.drop r.currentRowIdx := by
      rw [hdrop]
      exact List.mem_cons_self _ _
    obtain ⟨ds, hds⟩ := next_ok_aux r dest hlt (hdest _ hmem)
    rw [hds]
    simp
  · rw [next_eof_aux r dest heq]
    simp

/-- Witness for C10: on the one-row sample set with an adequate buffer,
Next does not fault. -/
theorem C10_next_no_fault_witness :
    ((⟨sampleRS, 0⟩ : rows).currentRowIdx ≤ (⟨sampleRS, 0⟩ : rows).result.Rows.length ∧
      ∀ row ∈ (⟨sampleRS, 0⟩ : rows).result.Rows.drop 0, row.length ≤ ([Value.vnull]).length) ∧
    rows.Next ⟨sampleRS, 0⟩ [Value.vnull] ≠ .error .fault := by
  have h1 : (⟨sampleRS, 0⟩ : rows).currentRowIdx ≤ (⟨sampleRS, 0⟩ : rows).result.Rows.length := by
    decide
  have h2 : ∀ row ∈ (⟨sampleRS, 0⟩ : rows).result.Rows.drop 0,
      row.length ≤ ([Value.vnull]).length := by decide
  exact ⟨⟨h1, h2⟩, C10_next_no_fault ⟨sampleRS, 0⟩ [Value.vnull] h1 h2⟩

/-- Appending values to a present accumulator appends the mapped tail. -/
lemma foldl_appendValue_some (s : List NamedValue) (acc : List Value) :
    s.foldl appendValue (some acc) = some (acc ++ s.map fun a => a.Value) := by
  induction s generalizing acc with
  | nil => simp
  | cons a s ih =>
    rw [List.foldl_cons]
    have h1 : appendValue (some acc) a = some (acc ++ [a.Value]) := rfl
    rw [h1, ih]
    simp

/-- The value-collecting loop over a nonempty list yields a present
slice holding every value in order. -/
lemma foldl_appendValue_nonempty (s : List NamedValue) (hs : s ≠ []) :
    s.foldl appendValue none = some (s.map fun a => a.Value) := by
  cases s with
  | nil => exact absurd rfl hs
  | cons a s =>
    rw [List.foldl_cons]
    have h1 : appendValue none a = some [a.Value] := rfl
    rw [h1, foldl_appendValue_some]
    simp

/-- Reading the value-collecting loop through getD. -/
lemma foldl_appendValue_getD (s : List NamedValue) :
    (s.foldl appendValue none).getD [] = s.map fun a => a.Value := by
  cases s with
  | nil => rfl
  | cons a s =>
    rw [foldl_appendValue_nonempty _ (List.cons_ne_nil a s)]
    rfl

/-- The name-collecting loop keeps exactly the names of named entries,
in order, after whatever the accumulator already holds. -/
lemma foldl_appendName_getD (s : List NamedValue) (acc : Option (List String)) :
    (s.foldl appendName acc).getD [] =
      acc.getD [] ++ (s.filter fun a => decide (0 < a.Name.length)).map fun a => a.Name := by
  induction s generalizing acc with
  | nil => simp
  | cons a s ih =>
    rw [List.foldl_cons, ih]
    by_cases hn : 0 < a.Name.length
    · have h1 : appendName acc a = some (acc.getD [] ++ [a.Name]) := by
        simp [appendName, hn, goAppend]
      rw [h1, List.filter_cons_of_pos (by simpa using hn)]
      simp
    · have h1 : appendName acc a = acc := by
        simp [appendName, hn]
      rw [h1, List.filter_cons_of_neg (by simpa using hn)]

/-- Claim C3: on pairwise-distinct ordinals, convertArgs produces the
values in ascending-ordinal order and the names of exactly the named
entries in that same order, with no placeholder for unnamed entries. -/
theorem C3_convertArgs_normalization (args : List NamedValue)
    (_hdist : args.Pairwise fun a b => a.Ordinal ≠ b.Ordinal) :
    ∃ s : List NamedValue,
      s.Perm args ∧ s.Sorted ordLE ∧
      (convertArgs args).Values.getD [] = s.map (fun a => a.Value) ∧
      (convertArgs args).Names.getD [] =
        (s.filter fun a => decide (0 < a.Name.length)).map fun a => a.Name := by
  refine ⟨List.insertionSort ordLE args, List.perm_insertionSort ordLE args,
    List.sorted_insertionSort ordLE args, ?_, ?_⟩
  · by_cases h0 : args.length = 0
    · have hargs : args = [] := List.length_eq_zero.mp h0
      subst hargs
      simp [convertArgs]
    · unfold convertArgs
      rw [if_neg h0]
      exact foldl_appendValue_getD _
  · by_cases h0 : args.length = 0
    · have hargs : args = [] := List.length_eq_zero.mp h0
      subst hargs
      simp [convertArgs]
    · unfold convertArgs
      rw [if_neg h0, foldl_appendName_getD]
      simp

/-- The spec's example argument list: an unnamed entry at ordinal 1 with
value "x" and an entry named "a" at ordinal 0 with value 5. -/
def demoArgs : List NamedValue :=
  [⟨"", 1, .vtext "x"⟩, ⟨"a", 0, .vint 5⟩]

/-- Witness for C3 on the spec's example: values normalize to [5, "x"]
and names to ["a"]. -/
theorem C3_convertArgs_normalization_witness :
    (demoArgs.Pairwise fun a b => a.Ordinal ≠ b.Ordinal) ∧
    (∃ s : List NamedValue,
      s.Perm demoArgs ∧ s.Sorted ordLE ∧
      (convertArgs demoArgs).Values.getD [] = s.map (fun a => a.Value) ∧
      (convertArgs demoArgs).Names.getD [] =
        (s.filter fun a => decide (0 < a.Name.length)).map fun a => a.Name) ∧
    (convertArgs demoArgs).Values = some [Value.vint 5, Value.vtext "x"] ∧
    (convertArgs demoArgs).Names = some ["a"] := by
  have hp : demoArgs.Pairwise fun a b => a.Ordinal ≠ b.Ordinal := by decide
  exact ⟨hp, C3_convertArgs_normalization demoArgs hp, rfl, rfl⟩

/-- Claim C9: the empty argument list normalizes to absent (nil) values
and names slices — a representation distinct from present-but-empty
slices — and every non-empty argument list yields a present values
slice with one entry per argument. -/
theorem C9_empty_args (args : List NamedValue) :
    convertArgs [] = ⟨none, none⟩ ∧
    (⟨none, none⟩ : params) ≠ ⟨some [], some []⟩ ∧
    (args ≠ [] → ∃ vs, (convertArgs args).Values = some vs ∧ vs.length = args.length) := by
  refine ⟨rfl, by simp, fun hne => ?_⟩
  have h0 : args.length ≠ 0 := by simpa using hne
  have hsne : List.insertionSort ordLE args ≠ [] := by
    intro hnil
    have hperm := List.perm_insertionSort ordLE args
    rw [hnil] at hperm
    exact hne hperm.symm.eq_nil
  unfold convertArgs
  rw [if_neg h0]
  refine ⟨(List.insertionSort ordLE args).map fun a => a.Value, ?_, ?_⟩
  · exact foldl_appendValue_nonempty _ hsne
  · rw [List.length_map]
    exact (List.perm_insertionSort ordLE args).length_eq

/-- Witness for C9: a one-entry argument list yields a present values
slice of length 1, next to the nil representation for the empty list. -/
theorem C9_empty_args_witness :
    ([(⟨"a", 1, .vint 5⟩ : NamedValue)] ≠ []) ∧
    (convertArgs [] = ⟨none, none⟩ ∧
      (⟨none, none⟩ : params) ≠ ⟨some [], some []⟩ ∧
      ∃ vs, (convertArgs [(⟨"a", 1, .vint 5⟩ : NamedValue)]).Values = some vs ∧
        vs.length = [(⟨"a", 1, .vint 5⟩ : NamedValue)].length) := by
  have hne : [(⟨"a", 1, .vint 5⟩ : NamedValue)] ≠ [] := List.cons_ne_nil _ _
  have h := C9_empty_args [(⟨"a", 1, .vint 5⟩ : NamedValue)]
  exact ⟨hne, h.1, h.2.1, h.2.2 hne⟩

end LibsqlHttp
